import Mathlib

/-!
# Req-Trace graph comparison engine: formal model and verification

The repository's UI (`GraphComparisonView`) calls a graph comparison,
merge and evolution-tracking engine through `/compare`, `/merge` and
`/evolution/track`.  The engine itself is not part of the provided
sources; its behaviour is specified in the repository's design
document.  This file embeds the engine's data model and operations
(modelled from the spec where the engine code is absent, and directly
from `src/unnamed/part_002` for the client-side request construction)
and proves the specified properties.
-/

set_option maxHeartbeats 1000000

namespace ReqTrace

/-- Modelled from the spec: scalar attribute values — the spec's closed
variant type for open attribute bags (string, number, boolean, null);
attributes are compared by full equality per entry, so only decidable
equality of values matters here. -/
inductive Value where
  | str (s : String)
  | num (n : Int)
  | bool (b : Bool)
  | null
deriving DecidableEq, Repr

/-- An open attribute mapping: string keys to values. -/
abbrev Attrs := List (String × Value)

/-- Modelled from the spec: a node has a stable string identity `id`
plus an open attribute mapping. -/
structure Node where
  id : String
  attrs : Attrs
deriving DecidableEq, Repr

/-- Modelled from the spec: a link's identity is the composite key
`(source_id, target_id, relation_type)`, plus an open attribute
mapping. -/
structure Link where
  source : String
  target : String
  relation : String
  attrs : Attrs
deriving DecidableEq, Repr

/-- Modelled from the spec: a graph is a pair of node and link
collections (wire shape `{nodes: [...], links: [...]}`). -/
structure Graph where
  nodes : List Node
  links : List Link
deriving DecidableEq, Repr

/-- The composite identity key of a link. -/
def linkKey (l : Link) : String × String × String :=
  (l.source, l.target, l.relation)

/-- Look an attribute up by key in an attribute mapping. -/
def lookupAttr (s : String) : Attrs → Option Value
  | [] => none
  | (k, v) :: rest => if k = s then some v else lookupAttr s rest

/-- Modelled from the spec: deep structural equality of two attribute
mappings — any attribute present on one side and absent or different
on the other makes the mappings unequal.  Checked over every key that
occurs in either mapping. -/
def attrsEq (a b : Attrs) : Bool :=
  (a.map Prod.fst ++ b.map Prod.fst).all
    (fun s => decide (lookupAttr s a = lookupAttr s b))

/-- The deduplicated node identity keys of a graph (duplicated ids are
normalized away; duplicates are not an error). -/
def nodeKeys (g : Graph) : List String :=
  (g.nodes.map Node.id).dedup

/-- The deduplicated link composite keys of a graph. -/
def linkKeys (g : Graph) : List (String × String × String) :=
  (g.links.map linkKey).dedup

/-- Modelled from the spec: the node index — identity key to full
entity, last-seen entity winning on duplicate ids. -/
def nodeAt (g : Graph) (k : String) : Option Node :=
  g.nodes.reverse.find? (fun n => decide (n.id = k))

/-- Modelled from the spec: the link index — composite key to full
entity, last-seen entity winning on duplicate keys. -/
def linkAt (g : Graph) (k : String × String × String) : Option Link :=
  g.links.reverse.find? (fun l => decide (linkKey l = k))

/-- List union of two key lists, first list's order first, keeping one
occurrence per key (both inputs are assumed deduplicated). -/
def unionKeys {κ : Type} [DecidableEq κ] (ka kb : List κ) : List κ :=
  ka ++ kb.filter (fun k => !decide (k ∈ ka))

/-- One side (nodes or links) of a diff result: the four
classifications plus their counts. -/
structure DiffSide (κ : Type) where
  added : List κ
  removed : List κ
  modified : List κ
  unchanged : List κ
  count_added : Nat
  count_removed : Nat
  count_modified : Nat
  count_unchanged : Nat
deriving Repr

/-- Modelled from the spec: classify the union of two key sets into
added / removed / modified / unchanged, where `eqAt k` decides whether
the two entities stored under a shared key `k` are structurally
equal. -/
def diffSide {κ : Type} [DecidableEq κ] (ka kb : List κ) (eqAt : κ → Bool) :
    DiffSide κ :=
  let added := kb.filter (fun k => !decide (k ∈ ka))
  let removed := ka.filter (fun k => !decide (k ∈ kb))
  let common := ka.filter (fun k => decide (k ∈ kb))
  let unchanged := common.filter (fun k => eqAt k)
  let modified := common.filter (fun k => !eqAt k)
  ⟨added, removed, modified, unchanged,
   added.length, removed.length, modified.length, unchanged.length⟩

/-- Whether the node stored under key `k` has the same attribute
mapping in both graphs (false when `k` is missing from either). -/
def nodeEqAt (A B : Graph) (k : String) : Bool :=
  match nodeAt A k, nodeAt B k with
  | some x, some y => attrsEq x.attrs y.attrs
  | _, _ => false

/-- Whether the link stored under composite key `k` has the same
attribute mapping in both graphs. -/
def linkEqAt (A B : Graph) (k : String × String × String) : Bool :=
  match linkAt A k, linkAt B k with
  | some x, some y => attrsEq x.attrs y.attrs
  | _, _ => false

/-- The full result of comparing two graphs. -/
structure DiffResult where
  nodes : DiffSide String
  links : DiffSide (String × String × String)
  similarity_score : ℚ
deriving Repr

/-- The number of distinct identity keys (nodes plus links) occurring
in either graph, entities present in both graphs counted once. -/
def totalUniqueKeys (A B : Graph) : Nat :=
  (unionKeys (nodeKeys A) (nodeKeys B)).length +
  (unionKeys (linkKeys A) (linkKeys B)).length

/-- Modelled from the spec: `compare(graphA, graphB)` — diff both key
sets by identity, then `similarity_score = (unchanged nodes +
unchanged links) / max(1, total unique nodes + total unique links)`,
with two empty graphs defined as score 1.0. -/
def compareGraphs (A B : Graph) : DiffResult :=
  let dn := diffSide (nodeKeys A) (nodeKeys B) (nodeEqAt A B)
  let dl := diffSide (linkKeys A) (linkKeys B) (linkEqAt A B)
  { nodes := dn
    links := dl
    similarity_score :=
      if totalUniqueKeys A B = 0 then 1
      else ((dn.count_unchanged + dl.count_unchanged : ℕ) : ℚ) /
        ((max 1 (totalUniqueKeys A B) : ℕ) : ℚ) }

/-- The errors the engine can signal. -/
inductive EngineError where
  | InvalidStrategy
  | InsufficientVersions
deriving DecidableEq, Repr

/-- The four recognized merge strategy names. -/
def validStrategies : List String :=
  ["union", "intersection", "prefer_first", "prefer_second"]

/-- Modelled from the spec: pick the surviving entity for a key
present in at least one input; when present in both, graphA wins
exactly under `prefer_first`, otherwise graphB wins. -/
def pickEntity {α : Type} (preferFirst : Bool) (atA atB : Option α) : Option α :=
  match atA, atB with
  | some a, some b => some (if preferFirst then a else b)
  | some a, none => some a
  | none, some b => some b
  | none, none => none

/-- Keys of the merged graph for a given (already validated) strategy:
intersection keeps only shared keys, every other strategy keeps the
union of keys. -/
def mergeKeys {κ : Type} [DecidableEq κ] (strategy : String) (ka kb : List κ) :
    List κ :=
  if strategy = "intersection" then ka.filter (fun k => decide (k ∈ kb))
  else unionKeys ka kb

/-- Provenance tallies over the merged entities' keys: each output key
increments the `_from_1` tally when it occurs in graphA and the
`_from_2` tally when it occurs in graphB (both, when in both). -/
def provCounts {κ : Type} [DecidableEq κ] (ka kb keys : List κ) : Nat × Nat :=
  keys.foldl
    (fun p k =>
      ((if k ∈ ka then p.1 + 1 else p.1), (if k ∈ kb then p.2 + 1 else p.2)))
    (0, 0)

/-- Merge statistics: totals plus per-source provenance tallies. -/
structure MergeStatistics where
  total_nodes : Nat
  total_links : Nat
  nodes_from_1 : Nat
  nodes_from_2 : Nat
  links_from_1 : Nat
  links_from_2 : Nat
deriving DecidableEq, Repr

/-- A merge result: the merged graph plus statistics. -/
structure MergeResult where
  merged_graph : Graph
  statistics : MergeStatistics
deriving DecidableEq, Repr

/-- The merged node list for a validated strategy: one entity per
merged key, graphA's entity winning on shared keys exactly under
`prefer_first`, graphB's otherwise. -/
def mergedNodesOf (A B : Graph) (strategy : String) : List Node :=
  (mergeKeys strategy (nodeKeys A) (nodeKeys B)).filterMap
    (fun k => pickEntity (strategy = "prefer_first") (nodeAt A k) (nodeAt B k))

/-- The merged link list for a validated strategy. -/
def mergedLinksOf (A B : Graph) (strategy : String) : List Link :=
  (mergeKeys strategy (linkKeys A) (linkKeys B)).filterMap
    (fun k => pickEntity (strategy = "prefer_first") (linkAt A k) (linkAt B k))

/-- The merge result for a validated strategy: the merged graph plus
totals and provenance statistics. -/
def mergeResultOf (A B : Graph) (strategy : String) : MergeResult :=
  let mergedNodes := mergedNodesOf A B strategy
  let mergedLinks := mergedLinksOf A B strategy
  let np := provCounts (nodeKeys A) (nodeKeys B) (mergedNodes.map Node.id)
  let lp := provCounts (linkKeys A) (linkKeys B) (mergedLinks.map linkKey)
  { merged_graph := { nodes := mergedNodes, links := mergedLinks }
    statistics :=
      { total_nodes := mergedNodes.length
        total_links := mergedLinks.length
        nodes_from_1 := np.1
        nodes_from_2 := np.2
        links_from_1 := lp.1
        links_from_2 := lp.2 } }

/-- Modelled from the spec: `merge(graphA, graphB, strategy)` — reject
unrecognized strategies with `InvalidStrategy` and no partial result;
otherwise emit one entity per merged key (graphB's attribute mapping
winning on shared keys except under `prefer_first`) together with
totals and provenance statistics. -/
def mergeGraphs (A B : Graph) (strategy : String) :
    Except EngineError MergeResult :=
  if strategy ∈ validStrategies then Except.ok (mergeResultOf A B strategy)
  else Except.error EngineError.InvalidStrategy

/-- One snapshot in an evolution sequence: a graph with a timestamp. -/
structure GraphVersion where
  graph : Graph
  timestamp : String
deriving DecidableEq, Repr

/-- One evolution step record: the deltas between two consecutive
versions (unchanged counts are not carried into the step record). -/
structure EvolutionStep where
  from_version : Nat
  to_version : Nat
  timestamp : String
  nodes_added : Nat
  nodes_removed : Nat
  nodes_modified : Nat
  links_added : Nat
  links_removed : Nat
  links_modified : Nat
deriving DecidableEq, Repr

/-- Cumulative evolution summary: sums of additions and removals
across all steps. -/
structure EvolutionSummary where
  total_node_additions : Nat
  total_node_removals : Nat
  total_link_additions : Nat
  total_link_removals : Nat
deriving DecidableEq, Repr

/-- An evolution result: ordered step records plus the summary. -/
structure EvolutionResult where
  evolution_steps : List EvolutionStep
  summary : EvolutionSummary
deriving DecidableEq, Repr

/-- Modelled from the spec: the step record for consecutive versions
`v[i]`, `v[i+1]` — the comparator's delta counts, stamped with
`v[i+1]`'s timestamp. -/
def mkEvolutionStep (i : Nat) (a b : GraphVersion) : EvolutionStep :=
  let d := compareGraphs a.graph b.graph
  { from_version := i
    to_version := i + 1
    timestamp := b.timestamp
    nodes_added := d.nodes.count_added
    nodes_removed := d.nodes.count_removed
    nodes_modified := d.nodes.count_modified
    links_added := d.links.count_added
    links_removed := d.links.count_removed
    links_modified := d.links.count_modified }

/-- Modelled from the spec: one step record per consecutive version
pair, in input order, starting at index `i`. -/
def evolutionSteps (i : Nat) : List GraphVersion → List EvolutionStep
  | a :: b :: rest => mkEvolutionStep i a b :: evolutionSteps (i + 1) (b :: rest)
  | _ => []

/-- Modelled from the spec: the cumulative summary is the arithmetic
sum of each delta field across all steps. -/
def summarize (steps : List EvolutionStep) : EvolutionSummary :=
  steps.foldl
    (fun s st =>
      { total_node_additions := s.total_node_additions + st.nodes_added
        total_node_removals := s.total_node_removals + st.nodes_removed
        total_link_additions := s.total_link_additions + st.links_added
        total_link_removals := s.total_link_removals + st.links_removed })
    ⟨0, 0, 0, 0⟩

/-- Modelled from the spec: `trackEvolution(versions)` — fewer than 2
versions is an `InsufficientVersions` error with no partial result;
otherwise compare each consecutive pair and aggregate. -/
def trackEvolution (versions : List GraphVersion) :
    Except EngineError EvolutionResult :=
  if versions.length < 2 then Except.error EngineError.InsufficientVersions
  else
    let steps := evolutionSteps 0 versions
    Except.ok { evolution_steps := steps, summary := summarize steps }

/-- One element of the `graph_versions` array the UI sends: from
`src/unnamed/part_002` (`trackEvolution` handler), the JS spread
`{ ...graph, timestamp }` produces a flat object carrying the graph's
top-level fields (`nodes`, `links`) plus a `timestamp` field — not a
nested (graph, timestamp) pair. -/
structure EvolutionPayloadEntry where
  nodes : List Node
  links : List Link
  timestamp : String
deriving DecidableEq, Repr

/-- From `src/unnamed/part_002` lines 138-141: the client builds
`versions = [{...graph1, timestamp: now}, {...graph2, timestamp: now}]`
where `now` is the client's current time in ISO format. -/
def buildEvolutionRequest (graph1 graph2 : Graph) (now : String) :
    List EvolutionPayloadEntry :=
  [{ nodes := graph1.nodes, links := graph1.links, timestamp := now },
   { nodes := graph2.nodes, links := graph2.links, timestamp := now }]

/-- How the engine reads one flat payload entry back as a version. -/
def entryToVersion (e : EvolutionPayloadEntry) : GraphVersion :=
  { graph := { nodes := e.nodes, links := e.links }, timestamp := e.timestamp }

/-- The spec's worked example, graph A: nodes `n1`, `n2` and the link
`(n1, n2, "refs")`. -/
def exA : Graph :=
  { nodes := [⟨"n1", [("label", Value.str "one")]⟩,
              ⟨"n2", [("label", Value.str "two")]⟩]
    links := [⟨"n1", "n2", "refs", []⟩] }

/-- The spec's worked example, graph B: nodes `n2` (same attributes as
in A), `n3` and the link `(n2, n3, "refs")`. -/
def exB : Graph :=
  { nodes := [⟨"n2", [("label", Value.str "two")]⟩,
              ⟨"n3", [("label", Value.str "three")]⟩]
    links := [⟨"n2", "n3", "refs", []⟩] }

/-- The spec's strategy-conflict example, graph A: one node `id1` with
`attr = "x"`. -/
def exConflictA : Graph :=
  { nodes := [⟨"id1", [("attr", Value.str "x")]⟩], links := [] }

/-- The spec's strategy-conflict example, graph B: one node `id1` with
`attr = "y"`. -/
def exConflictB : Graph :=
  { nodes := [⟨"id1", [("attr", Value.str "y")]⟩], links := [] }

/-- Two graphs with the same identity key but different attribute
mappings, viewed as a proposition: both indices are populated at the
key and the attribute lookups agree everywhere. -/
def SameNodeAttrs (A B : Graph) (k : String) : Prop :=
  ∃ x y, nodeAt A k = some x ∧ nodeAt B k = some y ∧
    ∀ s, lookupAttr s x.attrs = lookupAttr s y.attrs

/-- The link analogue of `SameNodeAttrs`. -/
def SameLinkAttrs (A B : Graph) (k : String × String × String) : Prop :=
  ∃ x y, linkAt A k = some x ∧ linkAt B k = some y ∧
    ∀ s, lookupAttr s x.attrs = lookupAttr s y.attrs

section AttrLemmas

theorem lookupAttr_eq_none_of_not_mem {s : String} {a : Attrs}
    (h : s ∉ a.map Prod.fst) : lookupAttr s a = none := by
  induction a with
  | nil => rfl
  | cons p rest ih =>
    simp only [List.map_cons, List.mem_cons, not_or] at h
    rw [lookupAttr, if_neg (fun he => h.1 he.symm), ih h.2]

theorem attrsEq_iff {a b : Attrs} :
    attrsEq a b = true ↔ ∀ s, lookupAttr s a = lookupAttr s b := by
  constructor
  · intro h s
    rw [attrsEq, List.all_eq_true] at h
    by_cases ha : s ∈ a.map Prod.fst
    · exact of_decide_eq_true (h s (List.mem_append.2 (Or.inl ha)))
    · by_cases hb : s ∈ b.map Prod.fst
      · exact of_decide_eq_true (h s (List.mem_append.2 (Or.inr hb)))
      · rw [lookupAttr_eq_none_of_not_mem ha, lookupAttr_eq_none_of_not_mem hb]
  · intro h
    rw [attrsEq, List.all_eq_true]
    intro s _
    exact decide_eq_true (h s)

theorem attrsEq_refl (a : Attrs) : attrsEq a a = true :=
  attrsEq_iff.2 (fun _ => rfl)

end AttrLemmas

section KeyLemmas

theorem mem_nodeKeys {g : Graph} {k : String} :
    k ∈ nodeKeys g ↔ ∃ n ∈ g.nodes, n.id = k := by
  simp [nodeKeys, List.mem_dedup, List.mem_map]

theorem mem_linkKeys {g : Graph} {k : String × String × String} :
    k ∈ linkKeys g ↔ ∃ l ∈ g.links, linkKey l = k := by
  simp [linkKeys, List.mem_dedup, List.mem_map]

theorem nodup_nodeKeys (g : Graph) : (nodeKeys g).Nodup :=
  List.nodup_dedup _

theorem nodup_linkKeys (g : Graph) : (linkKeys g).Nodup :=
  List.nodup_dedup _

theorem nodeAt_eq_none {g : Graph} {k : String} (h : k ∉ nodeKeys g) :
    nodeAt g k = none := by
  rw [nodeAt, List.find?_eq_none]
  intro n hn hid
  exact h (mem_nodeKeys.2 ⟨n, List.mem_reverse.1 hn, of_decide_eq_true hid⟩)

theorem linkAt_eq_none {g : Graph} {k : String × String × String}
    (h : k ∉ linkKeys g) : linkAt g k = none := by
  rw [linkAt, List.find?_eq_none]
  intro l hl hid
  exact h (mem_linkKeys.2 ⟨l, List.mem_reverse.1 hl, of_decide_eq_true hid⟩)

theorem nodeAt_spec {g : Graph} {k : String} (h : k ∈ nodeKeys g) :
    ∃ n, nodeAt g k = some n ∧ n ∈ g.nodes ∧ n.id = k := by
  obtain ⟨n0, hn0, hid0⟩ := mem_nodeKeys.1 h
  have hsome : (nodeAt g k).isSome := by
    rw [nodeAt, List.find?_isSome]
    exact ⟨n0, List.mem_reverse.2 hn0, decide_eq_true hid0⟩
  obtain ⟨n, hn⟩ := Option.isSome_iff_exists.1 hsome
  rw [nodeAt] at hn
  refine ⟨n, hn, ?_, ?_⟩
  · exact List.mem_reverse.1 (List.mem_of_find?_eq_some hn)
  · simpa using List.find?_some hn

theorem linkAt_spec {g : Graph} {k : String × String × String}
    (h : k ∈ linkKeys g) :
    ∃ l, linkAt g k = some l ∧ l ∈ g.links ∧ linkKey l = k := by
  obtain ⟨l0, hl0, hid0⟩ := mem_linkKeys.1 h
  have hsome : (linkAt g k).isSome := by
    rw [linkAt, List.find?_isSome]
    exact ⟨l0, List.mem_reverse.2 hl0, decide_eq_true hid0⟩
  obtain ⟨l, hl⟩ := Option.isSome_iff_exists.1 hsome
  rw [linkAt] at hl
  refine ⟨l, hl, ?_, ?_⟩
  · exact List.mem_reverse.1 (List.mem_of_find?_eq_some hl)
  · simpa using List.find?_some hl

theorem mem_unionKeys {κ : Type} [DecidableEq κ] {ka kb : List κ} {k : κ} :
    k ∈ unionKeys ka kb ↔ k ∈ ka ∨ k ∈ kb := by
  simp only [unionKeys, List.mem_append, List.mem_filter, Bool.not_eq_eq_eq_not,
    Bool.not_true, decide_eq_false_iff_not]
  constructor
  · rintro (h | ⟨h, _⟩)
    · exact Or.inl h
    · exact Or.inr h
  · rintro (h | h)
    · exact Or.inl h
    · by_cases ha : k ∈ ka
      · exact Or.inl ha
      · exact Or.inr ⟨h, ha⟩

theorem nodup_unionKeys {κ : Type} [DecidableEq κ] {ka kb : List κ}
    (ha : ka.Nodup) (hb : kb.Nodup) : (unionKeys ka kb).Nodup := by
  refine List.Nodup.append ha (hb.filter _) (List.disjoint_left.2 ?_)
  intro x hx hmem
  have := (List.mem_filter.1 hmem).2
  simp only [Bool.not_eq_eq_eq_not, Bool.not_true, decide_eq_false_iff_not] at this
  exact this hx

theorem length_unionKeys {κ : Type} [DecidableEq κ] {ka kb : List κ}
    (ha : ka.Nodup) (hb : kb.Nodup) :
    (unionKeys ka kb).length = (ka.toFinset ∪ kb.toFinset).card := by
  have hnd : (unionKeys ka kb).Nodup := nodup_unionKeys ha hb
  have hset : (unionKeys ka kb).toFinset = ka.toFinset ∪ kb.toFinset := by
    ext x
    simp only [List.mem_toFinset, Finset.mem_union, mem_unionKeys]
  rw [← List.toFinset_card_of_nodup hnd, hset]

end KeyLemmas

section DiffLemmas

variable {κ : Type} [DecidableEq κ] {ka kb : List κ} {eqAt : κ → Bool} {k : κ}

theorem mem_diffSide_added :
    k ∈ (diffSide ka kb eqAt).added ↔ k ∈ kb ∧ k ∉ ka := by
  simp [diffSide, List.mem_filter]

theorem mem_diffSide_removed :
    k ∈ (diffSide ka kb eqAt).removed ↔ k ∈ ka ∧ k ∉ kb := by
  simp [diffSide, List.mem_filter]

theorem mem_diffSide_unchanged :
    k ∈ (diffSide ka kb eqAt).unchanged ↔ k ∈ ka ∧ k ∈ kb ∧ eqAt k = true := by
  simp only [diffSide, List.mem_filter, and_assoc, decide_eq_true_eq]

theorem mem_diffSide_modified :
    k ∈ (diffSide ka kb eqAt).modified ↔ k ∈ ka ∧ k ∈ kb ∧ eqAt k = false := by
  simp only [diffSide, List.mem_filter, and_assoc, decide_eq_true_eq,
    Bool.not_eq_eq_eq_not, Bool.not_true]

theorem nodeEqAt_iff {A B : Graph} {k : String} :
    nodeEqAt A B k = true ↔ SameNodeAttrs A B k := by
  rw [nodeEqAt, SameNodeAttrs]
  cases hA : nodeAt A k with
  | none =>
    constructor
    · intro h
      exact absurd h (by simp)
    · rintro ⟨x, y, hx, _, _⟩
      exact Option.noConfusion hx
  | some x =>
    cases hB : nodeAt B k with
    | none =>
      constructor
      · intro h
        exact absurd h (by simp)
      · rintro ⟨x1, y1, _, hy, _⟩
        exact Option.noConfusion hy
    | some y =>
      simp only [attrsEq_iff]
      constructor
      · intro h
        exact ⟨x, y, rfl, rfl, h⟩
      · rintro ⟨x1, y1, hx1, hy1, h⟩
        obtain rfl : x = x1 := Option.some_injective _ hx1
        obtain rfl : y = y1 := Option.some_injective _ hy1
        exact h

theorem linkEqAt_iff {A B : Graph} {k : String × String × String} :
    linkEqAt A B k = true ↔ SameLinkAttrs A B k := by
  rw [linkEqAt, SameLinkAttrs]
  cases hA : linkAt A k with
  | none =>
    constructor
    · intro h
      exact absurd h (by simp)
    · rintro ⟨x, y, hx, _, _⟩
      exact Option.noConfusion hx
  | some x =>
    cases hB : linkAt B k with
    | none =>
      constructor
      · intro h
        exact absurd h (by simp)
      · rintro ⟨x1, y1, _, hy, _⟩
        exact Option.noConfusion hy
    | some y =>
      simp only [attrsEq_iff]
      constructor
      · intro h
        exact ⟨x, y, rfl, rfl, h⟩
      · rintro ⟨x1, y1, hx1, hy1, h⟩
        obtain rfl : x = x1 := Option.some_injective _ hx1
        obtain rfl : y = y1 := Option.some_injective _ hy1
        exact h

end DiffLemmas

section MergeLemmas

/-- Finding by key in a reversed list with pairwise-distinct keys
returns exactly the (unique) element carrying that key. -/
theorem find_last_eq {α κ : Type} [DecidableEq κ] {keyOf : α → κ} {k : κ} :
    ∀ {l : List α}, (l.map keyOf).Nodup → ∀ {x : α}, x ∈ l → keyOf x = k →
      l.reverse.find? (fun y => decide (keyOf y = k)) = some x := by
  intro l
  induction l with
  | nil => intro _ x hx; exact absurd hx (List.not_mem_nil x)
  | cons a t ih =>
    intro hnd x hx hk
    have hnd2 : (t.map keyOf).Nodup := (List.nodup_cons.1 hnd).2
    have ha : keyOf a ∉ t.map keyOf := (List.nodup_cons.1 hnd).1
    rw [List.reverse_cons, List.find?_append]
    rcases List.mem_cons.1 hx with rfl | hxt
    · have hnone : t.reverse.find? (fun y => decide (keyOf y = k)) = none := by
        rw [List.find?_eq_none]
        intro y hy hyk
        have hyk2 : keyOf y = keyOf x := by
          rw [hk]
          exact of_decide_eq_true hyk
        exact ha (hyk2 ▸ List.mem_map_of_mem keyOf (List.mem_reverse.1 hy))
      rw [hnone, Option.none_or, List.find?_cons, decide_eq_true hk]
    · rw [ih hnd2 hxt hk]
      rfl

/-- Every merged key occurs in one of the two input key lists. -/
theorem mem_of_mem_mergeKeys {κ : Type} [DecidableEq κ] {strategy : String}
    {ka kb : List κ} {k : κ} (h : k ∈ mergeKeys strategy ka kb) :
    k ∈ ka ∨ k ∈ kb := by
  rw [mergeKeys] at h
  by_cases hs : strategy = "intersection"
  · rw [if_pos hs] at h
    exact Or.inl (List.mem_filter.1 h).1
  · rw [if_neg hs] at h
    exact mem_unionKeys.1 h

/-- Merged key lists never repeat a key. -/
theorem nodup_mergeKeys {κ : Type} [DecidableEq κ] {strategy : String}
    {ka kb : List κ} (ha : ka.Nodup) (hb : kb.Nodup) :
    (mergeKeys strategy ka kb).Nodup := by
  rw [mergeKeys]
  by_cases hs : strategy = "intersection"
  · rw [if_pos hs]
    exact ha.filter _
  · rw [if_neg hs]
    exact nodup_unionKeys ha hb

/-- A key present in at least one graph always yields a merged node,
and that node carries the key. -/
theorem pickNode_spec {A B : Graph} {k : String} (pf : Bool)
    (h : k ∈ nodeKeys A ∨ k ∈ nodeKeys B) :
    ∃ n, pickEntity pf (nodeAt A k) (nodeAt B k) = some n ∧ n.id = k := by
  by_cases hA : k ∈ nodeKeys A
  · obtain ⟨na, hna, _, hida⟩ := nodeAt_spec hA
    by_cases hB : k ∈ nodeKeys B
    · obtain ⟨nb, hnb, _, hidb⟩ := nodeAt_spec hB
      refine ⟨if pf then na else nb, ?_, ?_⟩
      · rw [hna, hnb]; rfl
      · by_cases hpf : pf = true
        · simp [hpf, hida]
        · simp only [Bool.not_eq_true] at hpf
          simp [hpf, hidb]
    · refine ⟨na, ?_, hida⟩
      rw [hna, nodeAt_eq_none hB]; rfl
  · obtain ⟨nb, hnb, _, hidb⟩ := nodeAt_spec (h.resolve_left hA)
    refine ⟨nb, ?_, hidb⟩
    rw [hnb, nodeAt_eq_none hA]; rfl

/-- The link analogue of `pickNode_spec`. -/
theorem pickLink_spec {A B : Graph} {k : String × String × String} (pf : Bool)
    (h : k ∈ linkKeys A ∨ k ∈ linkKeys B) :
    ∃ l, pickEntity pf (linkAt A k) (linkAt B k) = some l ∧ linkKey l = k := by
  by_cases hA : k ∈ linkKeys A
  · obtain ⟨la, hla, _, hida⟩ := linkAt_spec hA
    by_cases hB : k ∈ linkKeys B
    · obtain ⟨lb, hlb, _, hidb⟩ := linkAt_spec hB
      refine ⟨if pf then la else lb, ?_, ?_⟩
      · rw [hla, hlb]; rfl
      · by_cases hpf : pf = true
        · simp [hpf, hida]
        · simp only [Bool.not_eq_true] at hpf
          simp [hpf, hidb]
    · refine ⟨la, ?_, hida⟩
      rw [hla, linkAt_eq_none hB]; rfl
  · obtain ⟨lb, hlb, _, hidb⟩ := linkAt_spec (h.resolve_left hA)
    refine ⟨lb, ?_, hidb⟩
    rw [hlb, linkAt_eq_none hA]; rfl

/-- When every key is hit by the picker and the picked entity carries
the key, `filterMap` preserves the key list exactly. -/
theorem filterMap_keys_eq {κ α : Type} {f : κ → Option α} {keyOf : α → κ} :
    ∀ {keys : List κ}, (∀ k ∈ keys, ∃ a, f k = some a ∧ keyOf a = k) →
      (keys.filterMap f).map keyOf = keys := by
  intro keys
  induction keys with
  | nil => intro _; rfl
  | cons k rest ih =>
    intro h
    obtain ⟨a, ha, hk⟩ := h k (List.mem_cons_self k rest)
    rw [List.filterMap_cons, ha, List.map_cons, hk,
      ih (fun k2 hk2 => h k2 (List.mem_cons_of_mem k hk2))]

/-- The merged node ids are exactly the merged keys. -/
theorem mergedNodesOf_map_id (A B : Graph) (strategy : String) :
    (mergedNodesOf A B strategy).map Node.id =
      mergeKeys strategy (nodeKeys A) (nodeKeys B) := by
  rw [mergedNodesOf]
  refine filterMap_keys_eq ?_
  intro k hk
  exact pickNode_spec _ (mem_of_mem_mergeKeys hk)

/-- The merged link keys are exactly the merged keys. -/
theorem mergedLinksOf_map_key (A B : Graph) (strategy : String) :
    (mergedLinksOf A B strategy).map linkKey =
      mergeKeys strategy (linkKeys A) (linkKeys B) := by
  rw [mergedLinksOf]
  refine filterMap_keys_eq ?_
  intro k hk
  exact pickLink_spec _ (mem_of_mem_mergeKeys hk)

/-- The provenance fold counts, in each component, the output keys
present in the corresponding input key list. -/
theorem provCounts_eq {κ : Type} [DecidableEq κ] (ka kb : List κ) :
    ∀ (keys : List κ) (p q : Nat),
      keys.foldl
        (fun r k =>
          ((if k ∈ ka then r.1 + 1 else r.1), (if k ∈ kb then r.2 + 1 else r.2)))
        (p, q) =
      (p + keys.countP (fun k => decide (k ∈ ka)),
       q + keys.countP (fun k => decide (k ∈ kb))) := by
  intro keys
  induction keys with
  | nil => intro p q; simp
  | cons k rest ih =>
    intro p q
    rw [List.foldl_cons, ih, List.countP_cons, List.countP_cons]
    by_cases hka : k ∈ ka <;> by_cases hkb : k ∈ kb <;>
      simp [hka, hkb] <;> omega

end MergeLemmas

section EvolutionLemmas

/-- There is one step record per consecutive pair of versions. -/
theorem length_evolutionSteps :
    ∀ (vs : List GraphVersion) (i : Nat),
      (evolutionSteps i vs).length = vs.length - 1 := by
  intro vs
  induction vs with
  | nil => intro i; rfl
  | cons a t ih =>
    intro i
    cases t with
    | nil => rfl
    | cons b rest =>
      rw [evolutionSteps, List.length_cons, ih (i + 1)]
      simp

/-- The `j`-th step record compares the `j`-th and `(j+1)`-th versions
(with version indices offset by the starting index). -/
theorem getElem_evolutionSteps :
    ∀ (vs : List GraphVersion) (i j : Nat) (a b : GraphVersion),
      vs[j]? = some a → vs[j + 1]? = some b →
      (evolutionSteps i vs)[j]? = some (mkEvolutionStep (i + j) a b) := by
  intro vs
  induction vs with
  | nil => intro i j a b ha; simp at ha
  | cons v t ih =>
    intro i j a b ha hb
    cases t with
    | nil =>
      cases j with
      | zero => simp at hb
      | succ j2 => simp at hb
    | cons w rest =>
      cases j with
      | zero =>
        obtain rfl : v = a := by simpa using ha
        obtain rfl : w = b := by simpa using hb
        rw [evolutionSteps]
        simp
      | succ j2 =>
        have ha2 : (w :: rest)[j2]? = some a := by simpa using ha
        have hb2 : (w :: rest)[j2 + 1]? = some b := by simpa using hb
        have := ih (i + 1) j2 a b ha2 hb2
        rw [evolutionSteps]
        calc (mkEvolutionStep i v w :: evolutionSteps (i + 1) (w :: rest))[j2 + 1]?
            = (evolutionSteps (i + 1) (w :: rest))[j2]? := by simp
          _ = some (mkEvolutionStep (i + 1 + j2) a b) := this
          _ = some (mkEvolutionStep (i + (j2 + 1)) a b) := by
                rw [Nat.add_assoc, Nat.add_comm 1 j2]

/-- The summary fold computes, in each field, the initial value plus
the sum of the corresponding delta over all steps. -/
theorem summarize_fold_eq :
    ∀ (steps : List EvolutionStep) (init : EvolutionSummary),
      steps.foldl
        (fun s st =>
          { total_node_additions := s.total_node_additions + st.nodes_added
            total_node_removals := s.total_node_removals + st.nodes_removed
            total_link_additions := s.total_link_additions + st.links_added
            total_link_removals := s.total_link_removals + st.links_removed })
        init =
      { total_node_additions :=
          init.total_node_additions + (steps.map EvolutionStep.nodes_added).sum
        total_node_removals :=
          init.total_node_removals + (steps.map EvolutionStep.nodes_removed).sum
        total_link_additions :=
          init.total_link_additions + (steps.map EvolutionStep.links_added).sum
        total_link_removals :=
          init.total_link_removals + (steps.map EvolutionStep.links_removed).sum } := by
  intro steps
  induction steps with
  | nil => intro init; simp
  | cons st rest ih =>
    intro init
    rw [List.foldl_cons, ih]
    simp only [List.map_cons, List.sum_cons]
    congr 1 <;> omega

/-- `summarize` sums each delta field across all steps. -/
theorem summarize_eq (steps : List EvolutionStep) :
    summarize steps =
      { total_node_additions := (steps.map EvolutionStep.nodes_added).sum
        total_node_removals := (steps.map EvolutionStep.nodes_removed).sum
        total_link_additions := (steps.map EvolutionStep.links_added).sum
        total_link_removals := (steps.map EvolutionStep.links_removed).sum } := by
  rw [summarize, summarize_fold_eq]
  simp

end EvolutionLemmas

/-- The similarity score, unfolded. -/
theorem similarity_def (A B : Graph) :
    (compareGraphs A B).similarity_score =
      if totalUniqueKeys A B = 0 then 1
      else (((compareGraphs A B).nodes.count_unchanged +
             (compareGraphs A B).links.count_unchanged : ℕ) : ℚ) /
        ((max 1 (totalUniqueKeys A B) : ℕ) : ℚ) := rfl

/-- C9: swapping the argument order of `compare` swaps the added and
removed counts, for nodes and for links. -/
theorem claim_C9 : ∀ A B : Graph,
    (compareGraphs A B).nodes.count_added = (compareGraphs B A).nodes.count_removed ∧
    (compareGraphs A B).nodes.count_removed = (compareGraphs B A).nodes.count_added ∧
    (compareGraphs A B).links.count_added = (compareGraphs B A).links.count_removed ∧
    (compareGraphs A B).links.count_removed = (compareGraphs B A).links.count_added :=
  fun _ _ => ⟨rfl, rfl, rfl, rfl⟩

/-- C6: `merge` fails with `InvalidStrategy` exactly on strategy
strings outside the four recognized values, returning no merge result
there, and returns a merge result (never that error) on each of the
four recognized values. -/
theorem claim_C6 : ∀ (A B : Graph) (strategy : String),
    (mergeGraphs A B strategy = Except.error EngineError.InvalidStrategy ↔
      strategy ∉ validStrategies) ∧
    ((∃ r, mergeGraphs A B strategy = Except.ok r) ↔
      strategy ∈ validStrategies) := by
  intro A B strategy
  by_cases h : strategy ∈ validStrategies
  · rw [mergeGraphs, if_pos h]
    constructor
    · simp [h]
    · simp [h]
  · rw [mergeGraphs, if_neg h]
    constructor
    · simp [h]
    · simp [h]

/-- C6 witness: at the concrete inputs, `"bogus"` is rejected with
`InvalidStrategy` and `"union"` succeeds. -/
theorem claim_C6_witness :
    mergeGraphs exA exB "bogus" = Except.error EngineError.InvalidStrategy ∧
    ∃ r, mergeGraphs exA exB "union" = Except.ok r :=
  ⟨(claim_C6 exA exB "bogus").1.2 (by decide),
   (claim_C6 exA exB "union").2.2 (by decide)⟩

/-- C2: `compare` classifies every node identity key (and every link
composite key) of the union of the two graphs into exactly one of
added (only in B), removed (only in A), modified (in both, attribute
mappings differing) and unchanged (in both, attribute mappings
identical); keys outside the union are never classified. -/
theorem claim_C2 : ∀ A B : Graph,
    (∀ k : String,
      (k ∈ (compareGraphs A B).nodes.added ↔ k ∈ nodeKeys B ∧ k ∉ nodeKeys A) ∧
      (k ∈ (compareGraphs A B).nodes.removed ↔ k ∈ nodeKeys A ∧ k ∉ nodeKeys B) ∧
      (k ∈ (compareGraphs A B).nodes.modified ↔
        k ∈ nodeKeys A ∧ k ∈ nodeKeys B ∧ ¬ SameNodeAttrs A B k) ∧
      (k ∈ (compareGraphs A B).nodes.unchanged ↔
        k ∈ nodeKeys A ∧ k ∈ nodeKeys B ∧ SameNodeAttrs A B k) ∧
      ((if k ∈ (compareGraphs A B).nodes.added then 1 else 0) +
       (if k ∈ (compareGraphs A B).nodes.removed then 1 else 0) +
       (if k ∈ (compareGraphs A B).nodes.modified then 1 else 0) +
       (if k ∈ (compareGraphs A B).nodes.unchanged then 1 else 0) =
        if k ∈ nodeKeys A ∨ k ∈ nodeKeys B then 1 else 0)) ∧
    (∀ k : String × String × String,
      (k ∈ (compareGraphs A B).links.added ↔ k ∈ linkKeys B ∧ k ∉ linkKeys A) ∧
      (k ∈ (compareGraphs A B).links.removed ↔ k ∈ linkKeys A ∧ k ∉ linkKeys B) ∧
      (k ∈ (compareGraphs A B).links.modified ↔
        k ∈ linkKeys A ∧ k ∈ linkKeys B ∧ ¬ SameLinkAttrs A B k) ∧
      (k ∈ (compareGraphs A B).links.unchanged ↔
        k ∈ linkKeys A ∧ k ∈ linkKeys B ∧ SameLinkAttrs A B k) ∧
      ((if k ∈ (compareGraphs A B).links.added then 1 else 0) +
       (if k ∈ (compareGraphs A B).links.removed then 1 else 0) +
       (if k ∈ (compareGraphs A B).links.modified then 1 else 0) +
       (if k ∈ (compareGraphs A B).links.unchanged then 1 else 0) =
        if k ∈ linkKeys A ∨ k ∈ linkKeys B then 1 else 0)) := by
  intro A B
  constructor
  · intro k
    have hadd : k ∈ (compareGraphs A B).nodes.added ↔
        k ∈ nodeKeys B ∧ k ∉ nodeKeys A := mem_diffSide_added
    have hrem : k ∈ (compareGraphs A B).nodes.removed ↔
        k ∈ nodeKeys A ∧ k ∉ nodeKeys B := mem_diffSide_removed
    have hmod : k ∈ (compareGraphs A B).nodes.modified ↔
        k ∈ nodeKeys A ∧ k ∈ nodeKeys B ∧ ¬ SameNodeAttrs A B k := by
      rw [show (compareGraphs A B).nodes.modified =
          (diffSide (nodeKeys A) (nodeKeys B) (nodeEqAt A B)).modified from rfl,
        mem_diffSide_modified]
      simp only [← nodeEqAt_iff, Bool.not_eq_true]
    have hunch : k ∈ (compareGraphs A B).nodes.unchanged ↔
        k ∈ nodeKeys A ∧ k ∈ nodeKeys B ∧ SameNodeAttrs A B k := by
      rw [show (compareGraphs A B).nodes.unchanged =
          (diffSide (nodeKeys A) (nodeKeys B) (nodeEqAt A B)).unchanged from rfl,
        mem_diffSide_unchanged, nodeEqAt_iff]
    refine ⟨hadd, hrem, hmod, hunch, ?_⟩
    by_cases hA : k ∈ nodeKeys A <;> by_cases hB : k ∈ nodeKeys B <;>
      by_cases hE : SameNodeAttrs A B k <;>
      simp [hadd, hrem, hmod, hunch, hA, hB, hE]
  · intro k
    have hadd : k ∈ (compareGraphs A B).links.added ↔
        k ∈ linkKeys B ∧ k ∉ linkKeys A := mem_diffSide_added
    have hrem : k ∈ (compareGraphs A B).links.removed ↔
        k ∈ linkKeys A ∧ k ∉ linkKeys B := mem_diffSide_removed
    have hmod : k ∈ (compareGraphs A B).links.modified ↔
        k ∈ linkKeys A ∧ k ∈ linkKeys B ∧ ¬ SameLinkAttrs A B k := by
      rw [show (compareGraphs A B).links.modified =
          (diffSide (linkKeys A) (linkKeys B) (linkEqAt A B)).modified from rfl,
        mem_diffSide_modified]
      simp only [← linkEqAt_iff, Bool.not_eq_true]
    have hunch : k ∈ (compareGraphs A B).links.unchanged ↔
        k ∈ linkKeys A ∧ k ∈ linkKeys B ∧ SameLinkAttrs A B k := by
      rw [show (compareGraphs A B).links.unchanged =
          (diffSide (linkKeys A) (linkKeys B) (linkEqAt A B)).unchanged from rfl,
        mem_diffSide_unchanged, linkEqAt_iff]
    refine ⟨hadd, hrem, hmod, hunch, ?_⟩
    by_cases hA : k ∈ linkKeys A <;> by_cases hB : k ∈ linkKeys B <;>
      by_cases hE : SameLinkAttrs A B k <;>
      simp [hadd, hrem, hmod, hunch, hA, hB, hE]

/-- The internal key-union length agrees with the cardinality of the
union of the two graphs' key sets, for nodes and links together. -/
theorem totalUniqueKeys_eq_card (A B : Graph) :
    totalUniqueKeys A B =
      ((nodeKeys A).toFinset ∪ (nodeKeys B).toFinset).card +
      ((linkKeys A).toFinset ∪ (linkKeys B).toFinset).card := by
  rw [totalUniqueKeys, length_unionKeys (nodup_nodeKeys A) (nodup_nodeKeys B),
    length_unionKeys (nodup_linkKeys A) (nodup_linkKeys B)]

/-- C1: the similarity score is the number of unchanged nodes plus
unchanged links over `max(1, |node key union| + |link key union|)`,
entities present in both graphs counted once, with the score of two
empty graphs defined as `1`; on the spec's worked example the score is
`1/5`. -/
theorem claim_C1 : ∀ A B : Graph,
    ((compareGraphs A B).similarity_score =
      if ((nodeKeys A).toFinset ∪ (nodeKeys B).toFinset).card +
         ((linkKeys A).toFinset ∪ (linkKeys B).toFinset).card = 0 then 1
      else (((compareGraphs A B).nodes.count_unchanged +
             (compareGraphs A B).links.count_unchanged : ℕ) : ℚ) /
        ((max 1 (((nodeKeys A).toFinset ∪ (nodeKeys B).toFinset).card +
                 ((linkKeys A).toFinset ∪ (linkKeys B).toFinset).card) : ℕ) : ℚ)) ∧
    (((nodeKeys A).toFinset ∪ (nodeKeys B).toFinset).card +
     ((linkKeys A).toFinset ∪ (linkKeys B).toFinset).card = 0 ↔
      A.nodes = [] ∧ A.links = [] ∧ B.nodes = [] ∧ B.links = []) ∧
    (compareGraphs exA exB).similarity_score = 1 / 5 := by
  intro A B
  refine ⟨?_, ?_, ?_⟩
  · rw [similarity_def, totalUniqueKeys_eq_card]
  · rw [Nat.add_eq_zero]
    simp only [Finset.card_eq_zero, Finset.union_eq_empty,
      List.toFinset_eq_empty_iff, nodeKeys, linkKeys, List.dedup_eq_nil,
      List.map_eq_nil_iff]
    tauto
  · have hcn : (compareGraphs exA exB).nodes.count_unchanged = 1 := by decide
    have hcl : (compareGraphs exA exB).links.count_unchanged = 0 := by decide
    have ht : totalUniqueKeys exA exB = 5 := by decide
    rw [similarity_def, ht, hcn, hcl]
    norm_num

/-- The union of a key list with itself is itself. -/
theorem unionKeys_self {κ : Type} [DecidableEq κ] (ka : List κ) :
    unionKeys ka ka = ka := by
  rw [unionKeys]
  have h1 : ka.filter (fun k => !decide (k ∈ ka)) = [] :=
    List.filter_eq_nil_iff.2 (fun a ha => by simp [ha])
  rw [h1, List.append_nil]

/-- Diffing a key set against itself with a pointwise-true equality
test puts every key in `unchanged` and nothing elsewhere. -/
theorem diffSide_self {κ : Type} [DecidableEq κ] {ka : List κ} {eqAt : κ → Bool}
    (h : ∀ k ∈ ka, eqAt k = true) :
    diffSide ka ka eqAt = ⟨[], [], [], ka, 0, 0, 0, ka.length⟩ := by
  have h1 : ka.filter (fun k => !decide (k ∈ ka)) = [] :=
    List.filter_eq_nil_iff.2 (fun a ha => by simp [ha])
  have h2 : ka.filter (fun k => decide (k ∈ ka)) = ka :=
    List.filter_eq_self.2 (fun a ha => decide_eq_true ha)
  have h3 : ka.filter (fun k => eqAt k) = ka :=
    List.filter_eq_self.2 (fun a ha => h a ha)
  have h4 : ka.filter (fun k => !eqAt k) = [] :=
    List.filter_eq_nil_iff.2 (fun a ha => by rw [h a ha]; simp)
  simp only [diffSide, h1, h2, h3, h4, List.length_nil]

/-- Every node key of a graph passes the self-comparison equality
test. -/
theorem nodeEqAt_self {G : Graph} : ∀ k ∈ nodeKeys G, nodeEqAt G G k = true := by
  intro k hk
  obtain ⟨n, hx, _, _⟩ := nodeAt_spec hk
  exact nodeEqAt_iff.2 ⟨n, n, hx, hx, fun _ => rfl⟩

/-- Every link key of a graph passes the self-comparison equality
test. -/
theorem linkEqAt_self {G : Graph} : ∀ k ∈ linkKeys G, linkEqAt G G k = true := by
  intro k hk
  obtain ⟨l, hx, _, _⟩ := linkAt_spec hk
  exact linkEqAt_iff.2 ⟨l, l, hx, hx, fun _ => rfl⟩

/-- C8: comparing a graph to itself yields similarity score exactly 1,
empty added / removed / modified classes with zero counts, and every
node and link of the graph classified as unchanged. -/
theorem claim_C8 : ∀ G : Graph,
    (compareGraphs G G).similarity_score = 1 ∧
    (compareGraphs G G).nodes.added = [] ∧
    (compareGraphs G G).nodes.removed = [] ∧
    (compareGraphs G G).nodes.modified = [] ∧
    (compareGraphs G G).links.added = [] ∧
    (compareGraphs G G).links.removed = [] ∧
    (compareGraphs G G).links.modified = [] ∧
    (compareGraphs G G).nodes.count_added = 0 ∧
    (compareGraphs G G).nodes.count_removed = 0 ∧
    (compareGraphs G G).nodes.count_modified = 0 ∧
    (compareGraphs G G).links.count_added = 0 ∧
    (compareGraphs G G).links.count_removed = 0 ∧
    (compareGraphs G G).links.count_modified = 0 ∧
    (∀ n ∈ G.nodes, n.id ∈ (compareGraphs G G).nodes.unchanged) ∧
    (∀ l ∈ G.links, linkKey l ∈ (compareGraphs G G).links.unchanged) := by
  intro G
  have hnodes : (compareGraphs G G).nodes =
      diffSide (nodeKeys G) (nodeKeys G) (nodeEqAt G G) := rfl
  have hlinks : (compareGraphs G G).links =
      diffSide (linkKeys G) (linkKeys G) (linkEqAt G G) := rfl
  have hn : diffSide (nodeKeys G) (nodeKeys G) (nodeEqAt G G) =
      ⟨[], [], [], nodeKeys G, 0, 0, 0, (nodeKeys G).length⟩ :=
    diffSide_self nodeEqAt_self
  have hl : diffSide (linkKeys G) (linkKeys G) (linkEqAt G G) =
      ⟨[], [], [], linkKeys G, 0, 0, 0, (linkKeys G).length⟩ :=
    diffSide_self linkEqAt_self
  have hsim : (compareGraphs G G).similarity_score = 1 := by
    rw [similarity_def]
    have ht : totalUniqueKeys G G = (nodeKeys G).length + (linkKeys G).length := by
      rw [totalUniqueKeys, unionKeys_self, unionKeys_self]
    have hcu : (compareGraphs G G).nodes.count_unchanged +
        (compareGraphs G G).links.count_unchanged =
        (nodeKeys G).length + (linkKeys G).length := by
      rw [hnodes, hlinks, hn, hl]
    by_cases h0 : totalUniqueKeys G G = 0
    · rw [if_pos h0]
    · rw [if_neg h0, hcu, ← ht,
        Nat.max_eq_right (Nat.one_le_iff_ne_zero.2 h0)]
      exact div_self (Nat.cast_ne_zero.2 h0)
  refine ⟨hsim, ?_, ?_, ?_, ?_, ?_, ?_, ?_, ?_, ?_, ?_, ?_, ?_, ?_, ?_⟩
  · rw [hnodes, hn]
  · rw [hnodes, hn]
  · rw [hnodes, hn]
  · rw [hlinks, hl]
  · rw [hlinks, hl]
  · rw [hlinks, hl]
  · rw [hnodes, hn]
  · rw [hnodes, hn]
  · rw [hnodes, hn]
  · rw [hlinks, hl]
  · rw [hlinks, hl]
  · rw [hlinks, hl]
  · intro n hmem
    rw [hnodes, hn]
    exact mem_nodeKeys.2 ⟨n, hmem, rfl⟩
  · intro l hmem
    rw [hlinks, hl]
    exact mem_linkKeys.2 ⟨l, hmem, rfl⟩

/-- C8 witness: the self-comparison properties hold at the concrete
example graph A. -/
theorem claim_C8_witness :
    (compareGraphs exA exA).similarity_score = 1 ∧
    (compareGraphs exA exA).nodes.added = [] ∧
    ⟨"n1", "n2", "refs"⟩ ∈ (compareGraphs exA exA).links.unchanged := by
  obtain ⟨h1, h2, -, -, -, -, -, -, -, -, -, -, -, -, h15⟩ := claim_C8 exA
  exact ⟨h1, h2, h15 ⟨"n1", "n2", "refs", []⟩ (by decide)⟩

/-- C3: merging with the `union` strategy yields a graph whose node
ids (and link composite keys) are exactly the keys occurring in either
input, each exactly once, and whose totals equal the cardinalities of
the key unions. -/
theorem claim_C3 : ∀ A B : Graph, ∃ r, mergeGraphs A B "union" = Except.ok r ∧
    (r.merged_graph.nodes.map Node.id).Nodup ∧
    (∀ k, k ∈ r.merged_graph.nodes.map Node.id ↔
      (∃ n ∈ A.nodes, n.id = k) ∨ (∃ n ∈ B.nodes, n.id = k)) ∧
    r.statistics.total_nodes =
      ((nodeKeys A).toFinset ∪ (nodeKeys B).toFinset).card ∧
    (r.merged_graph.links.map linkKey).Nodup ∧
    (∀ k, k ∈ r.merged_graph.links.map linkKey ↔
      (∃ l ∈ A.links, linkKey l = k) ∨ (∃ l ∈ B.links, linkKey l = k)) ∧
    r.statistics.total_links =
      ((linkKeys A).toFinset ∪ (linkKeys B).toFinset).card := by
  intro A B
  refine ⟨mergeResultOf A B "union", ?_, ?_, ?_, ?_, ?_, ?_, ?_⟩
  · rw [mergeGraphs, if_pos (show "union" ∈ validStrategies by decide)]
  · rw [show (mergeResultOf A B "union").merged_graph.nodes =
        mergedNodesOf A B "union" from rfl, mergedNodesOf_map_id, mergeKeys,
      if_neg (show ¬("union" = "intersection") by decide)]
    exact nodup_unionKeys (nodup_nodeKeys A) (nodup_nodeKeys B)
  · intro k
    rw [show (mergeResultOf A B "union").merged_graph.nodes =
        mergedNodesOf A B "union" from rfl, mergedNodesOf_map_id, mergeKeys,
      if_neg (show ¬("union" = "intersection") by decide), mem_unionKeys,
      mem_nodeKeys, mem_nodeKeys]
  · rw [show (mergeResultOf A B "union").statistics.total_nodes =
        (mergedNodesOf A B "union").length from rfl,
      ← List.length_map (mergedNodesOf A B "union") Node.id,
      mergedNodesOf_map_id, mergeKeys,
      if_neg (show ¬("union" = "intersection") by decide),
      length_unionKeys (nodup_nodeKeys A) (nodup_nodeKeys B)]
  · rw [show (mergeResultOf A B "union").merged_graph.links =
        mergedLinksOf A B "union" from rfl, mergedLinksOf_map_key, mergeKeys,
      if_neg (show ¬("union" = "intersection") by decide)]
    exact nodup_unionKeys (nodup_linkKeys A) (nodup_linkKeys B)
  · intro k
    rw [show (mergeResultOf A B "union").merged_graph.links =
        mergedLinksOf A B "union" from rfl, mergedLinksOf_map_key, mergeKeys,
      if_neg (show ¬("union" = "intersection") by decide), mem_unionKeys,
      mem_linkKeys, mem_linkKeys]
  · rw [show (mergeResultOf A B "union").statistics.total_links =
        (mergedLinksOf A B "union").length from rfl,
      ← List.length_map (mergedLinksOf A B "union") linkKey,
      mergedLinksOf_map_key, mergeKeys,
      if_neg (show ¬("union" = "intersection") by decide),
      length_unionKeys (nodup_linkKeys A) (nodup_linkKeys B)]

/-- Looking a key up in a merged graph finds the merged entity that
carries it. -/
theorem nodeAt_mergeResultOf {A B : Graph} {s : String} {k : String} {n : Node}
    (hmem : n ∈ mergedNodesOf A B s) (hid : n.id = k) :
    nodeAt (mergeResultOf A B s).merged_graph k = some n := by
  have hnd : ((mergedNodesOf A B s).map Node.id).Nodup := by
    rw [mergedNodesOf_map_id]
    exact nodup_mergeKeys (nodup_nodeKeys A) (nodup_nodeKeys B)
  exact find_last_eq hnd hmem hid

/-- The link analogue of `nodeAt_mergeResultOf`. -/
theorem linkAt_mergeResultOf {A B : Graph} {s : String}
    {k : String × String × String} {l : Link}
    (hmem : l ∈ mergedLinksOf A B s) (hid : linkKey l = k) :
    linkAt (mergeResultOf A B s).merged_graph k = some l := by
  have hnd : ((mergedLinksOf A B s).map linkKey).Nodup := by
    rw [mergedLinksOf_map_key]
    exact nodup_mergeKeys (nodup_linkKeys A) (nodup_linkKeys B)
  exact find_last_eq hnd hmem hid

/-- On a key present in both graphs, the merged graph stores graphA's
node exactly under `prefer_first` and graphB's node otherwise. -/
theorem nodeAt_merged_of_both {A B : Graph} {s : String} {k : String}
    (hk : k ∈ mergeKeys s (nodeKeys A) (nodeKeys B))
    (hA : k ∈ nodeKeys A) (hB : k ∈ nodeKeys B) :
    nodeAt (mergeResultOf A B s).merged_graph k =
      (if s = "prefer_first" then nodeAt A k else nodeAt B k) := by
  obtain ⟨na, hna, _, hida⟩ := nodeAt_spec hA
  obtain ⟨nb, hnb, _, hidb⟩ := nodeAt_spec hB
  have hpick : pickEntity (decide (s = "prefer_first")) (nodeAt A k) (nodeAt B k)
      = some (if s = "prefer_first" then na else nb) := by
    rw [hna, hnb]
    by_cases hp : s = "prefer_first"
    · rw [decide_eq_true hp, if_pos hp]
      rfl
    · rw [decide_eq_false hp, if_neg hp]
      rfl
  have hmem : (if s = "prefer_first" then na else nb) ∈ mergedNodesOf A B s :=
    List.mem_filterMap.2 ⟨k, hk, hpick⟩
  have hid : (if s = "prefer_first" then na else nb).id = k := by
    by_cases hp : s = "prefer_first"
    · rw [if_pos hp]
      exact hida
    · rw [if_neg hp]
      exact hidb
  rw [nodeAt_mergeResultOf hmem hid]
  by_cases hp : s = "prefer_first"
  · rw [if_pos hp, if_pos hp, hna]
  · rw [if_neg hp, if_neg hp, hnb]

/-- The link analogue of `nodeAt_merged_of_both`. -/
theorem linkAt_merged_of_both {A B : Graph} {s : String}
    {k : String × String × String}
    (hk : k ∈ mergeKeys s (linkKeys A) (linkKeys B))
    (hA : k ∈ linkKeys A) (hB : k ∈ linkKeys B) :
    linkAt (mergeResultOf A B s).merged_graph k =
      (if s = "prefer_first" then linkAt A k else linkAt B k) := by
  obtain ⟨la, hla, _, hida⟩ := linkAt_spec hA
  obtain ⟨lb, hlb, _, hidb⟩ := linkAt_spec hB
  have hpick : pickEntity (decide (s = "prefer_first")) (linkAt A k) (linkAt B k)
      = some (if s = "prefer_first" then la else lb) := by
    rw [hla, hlb]
    by_cases hp : s = "prefer_first"
    · rw [decide_eq_true hp, if_pos hp]
      rfl
    · rw [decide_eq_false hp, if_neg hp]
      rfl
  have hmem : (if s = "prefer_first" then la else lb) ∈ mergedLinksOf A B s :=
    List.mem_filterMap.2 ⟨k, hk, hpick⟩
  have hid : linkKey (if s = "prefer_first" then la else lb) = k := by
    by_cases hp : s = "prefer_first"
    · rw [if_pos hp]
      exact hida
    · rw [if_neg hp]
      exact hidb
  rw [linkAt_mergeResultOf hmem hid]
  by_cases hp : s = "prefer_first"
  · rw [if_pos hp, if_pos hp, hla]
  · rw [if_neg hp, if_neg hp, hlb]

/-- C4: on an identity key present in both graphs with differing
attribute mappings, `union` and `prefer_second` emit graphB's entity
while `prefer_first` emits graphA's entity, for nodes and links. -/
theorem claim_C4 : ∀ A B : Graph,
    (∀ k : String, k ∈ nodeKeys A → k ∈ nodeKeys B → nodeEqAt A B k = false →
      (∃ r, mergeGraphs A B "union" = Except.ok r ∧
        nodeAt r.merged_graph k = nodeAt B k) ∧
      (∃ r, mergeGraphs A B "prefer_second" = Except.ok r ∧
        nodeAt r.merged_graph k = nodeAt B k) ∧
      (∃ r, mergeGraphs A B "prefer_first" = Except.ok r ∧
        nodeAt r.merged_graph k = nodeAt A k)) ∧
    (∀ k : String × String × String, k ∈ linkKeys A → k ∈ linkKeys B →
      linkEqAt A B k = false →
      (∃ r, mergeGraphs A B "union" = Except.ok r ∧
        linkAt r.merged_graph k = linkAt B k) ∧
      (∃ r, mergeGraphs A B "prefer_second" = Except.ok r ∧
        linkAt r.merged_graph k = linkAt B k) ∧
      (∃ r, mergeGraphs A B "prefer_first" = Except.ok r ∧
        linkAt r.merged_graph k = linkAt A k)) := by
  intro A B
  constructor
  · intro k hA hB _
    refine ⟨⟨mergeResultOf A B "union", ?_, ?_⟩,
      ⟨mergeResultOf A B "prefer_second", ?_, ?_⟩,
      ⟨mergeResultOf A B "prefer_first", ?_, ?_⟩⟩
    · rw [mergeGraphs, if_pos (show "union" ∈ validStrategies by decide)]
    · rw [nodeAt_merged_of_both ?hk hA hB,
        if_neg (show ¬("union" = "prefer_first") by decide)]
      case hk =>
        rw [mergeKeys, if_neg (show ¬("union" = "intersection") by decide)]
        exact mem_unionKeys.2 (Or.inl hA)
    · rw [mergeGraphs, if_pos (show "prefer_second" ∈ validStrategies by decide)]
    · rw [nodeAt_merged_of_both ?hk2 hA hB,
        if_neg (show ¬("prefer_second" = "prefer_first") by decide)]
      case hk2 =>
        rw [mergeKeys, if_neg (show ¬("prefer_second" = "intersection") by decide)]
        exact mem_unionKeys.2 (Or.inl hA)
    · rw [mergeGraphs, if_pos (show "prefer_first" ∈ validStrategies by decide)]
    · rw [nodeAt_merged_of_both ?hk3 hA hB,
        if_pos (show ("prefer_first" = "prefer_first") from rfl)]
      case hk3 =>
        rw [mergeKeys, if_neg (show ¬("prefer_first" = "intersection") by decide)]
        exact mem_unionKeys.2 (Or.inl hA)
  · intro k hA hB _
    refine ⟨⟨mergeResultOf A B "union", ?_, ?_⟩,
      ⟨mergeResultOf A B "prefer_second", ?_, ?_⟩,
      ⟨mergeResultOf A B "prefer_first", ?_, ?_⟩⟩
    · rw [mergeGraphs, if_pos (show "union" ∈ validStrategies by decide)]
    · rw [linkAt_merged_of_both ?hk4 hA hB,
        if_neg (show ¬("union" = "prefer_first") by decide)]
      case hk4 =>
        rw [mergeKeys, if_neg (show ¬("union" = "intersection") by decide)]
        exact mem_unionKeys.2 (Or.inl hA)
    · rw [mergeGraphs, if_pos (show "prefer_second" ∈ validStrategies by decide)]
    · rw [linkAt_merged_of_both ?hk5 hA hB,
        if_neg (show ¬("prefer_second" = "prefer_first") by decide)]
      case hk5 =>
        rw [mergeKeys, if_neg (show ¬("prefer_second" = "intersection") by decide)]
        exact mem_unionKeys.2 (Or.inl hA)
    · rw [mergeGraphs, if_pos (show "prefer_first" ∈ validStrategies by decide)]
    · rw [linkAt_merged_of_both ?hk6 hA hB,
        if_pos (show ("prefer_first" = "prefer_first") from rfl)]
      case hk6 =>
        rw [mergeKeys, if_neg (show ¬("prefer_first" = "intersection") by decide)]
        exact mem_unionKeys.2 (Or.inl hA)

/-- C4 witness: on the spec's conflict example `A = {id1: attr="x"}`,
`B = {id1: attr="y"}`, the `union` and `prefer_second` merges carry
`attr = "y"` and the `prefer_first` merge carries `attr = "x"`. -/
theorem claim_C4_witness :
    "id1" ∈ nodeKeys exConflictA ∧ "id1" ∈ nodeKeys exConflictB ∧
    nodeEqAt exConflictA exConflictB "id1" = false ∧
    (∃ r, mergeGraphs exConflictA exConflictB "union" = Except.ok r ∧
      nodeAt r.merged_graph "id1" = some ⟨"id1", [("attr", Value.str "y")]⟩) ∧
    (∃ r, mergeGraphs exConflictA exConflictB "prefer_second" = Except.ok r ∧
      nodeAt r.merged_graph "id1" = some ⟨"id1", [("attr", Value.str "y")]⟩) ∧
    (∃ r, mergeGraphs exConflictA exConflictB "prefer_first" = Except.ok r ∧
      nodeAt r.merged_graph "id1" = some ⟨"id1", [("attr", Value.str "x")]⟩) := by
  obtain ⟨⟨r1, hr1, he1⟩, ⟨r2, hr2, he2⟩, ⟨r3, hr3, he3⟩⟩ :=
    (claim_C4 exConflictA exConflictB).1 "id1" (by decide) (by decide) (by decide)
  refine ⟨by decide, by decide, by decide, ⟨r1, hr1, ?_⟩, ⟨r2, hr2, ?_⟩,
    ⟨r3, hr3, ?_⟩⟩
  · rw [he1]
    decide
  · rw [he2]
    decide
  · rw [he3]
    decide

/-- C5: for every merge call, each provenance tally counts each output
entity at most once — `_from_1` counts exactly the output entities
whose key occurs in graphA and `_from_2` those whose key occurs in
graphB (so an entity present in both inputs increments both tallies,
and every output entity occurs in at least one input). -/
theorem claim_C5 : ∀ (A B : Graph) (strategy : String),
    strategy ∈ validStrategies →
    ∃ r, mergeGraphs A B strategy = Except.ok r ∧
      r.statistics.nodes_from_1 =
        (r.merged_graph.nodes.filter (fun n => decide (n.id ∈ nodeKeys A))).length ∧
      r.statistics.nodes_from_2 =
        (r.merged_graph.nodes.filter (fun n => decide (n.id ∈ nodeKeys B))).length ∧
      r.statistics.links_from_1 =
        (r.merged_graph.links.filter (fun l => decide (linkKey l ∈ linkKeys A))).length ∧
      r.statistics.links_from_2 =
        (r.merged_graph.links.filter (fun l => decide (linkKey l ∈ linkKeys B))).length ∧
      (∀ n ∈ r.merged_graph.nodes, n.id ∈ nodeKeys A ∨ n.id ∈ nodeKeys B) ∧
      (∀ l ∈ r.merged_graph.links, linkKey l ∈ linkKeys A ∨ linkKey l ∈ linkKeys B) := by
  intro A B strategy hs
  refine ⟨mergeResultOf A B strategy, by rw [mergeGraphs, if_pos hs],
    ?_, ?_, ?_, ?_, ?_, ?_⟩
  · show (provCounts (nodeKeys A) (nodeKeys B)
      ((mergedNodesOf A B strategy).map Node.id)).1 = _
    rw [provCounts, provCounts_eq]
    simp only [Nat.zero_add, List.countP_map]
    simp only [Function.comp_def, List.countP_eq_length_filter]
    first
    | rfl
    | (congr 1
       exact List.filter_congr (fun x _ => decide_eq_decide.mpr Iff.rfl))
  · show (provCounts (nodeKeys A) (nodeKeys B)
      ((mergedNodesOf A B strategy).map Node.id)).2 = _
    rw [provCounts, provCounts_eq]
    simp only [Nat.zero_add, List.countP_map]
    simp only [Function.comp_def, List.countP_eq_length_filter]
    first
    | rfl
    | (congr 1
       exact List.filter_congr (fun x _ => decide_eq_decide.mpr Iff.rfl))
  · show (provCounts (linkKeys A) (linkKeys B)
      ((mergedLinksOf A B strategy).map linkKey)).1 = _
    rw [provCounts, provCounts_eq]
    simp only [Nat.zero_add, List.countP_map]
    simp only [Function.comp_def, List.countP_eq_length_filter]
    first
    | rfl
    | (congr 1
       exact List.filter_congr (fun x _ => decide_eq_decide.mpr Iff.rfl))
  · show (provCounts (linkKeys A) (linkKeys B)
      ((mergedLinksOf A B strategy).map linkKey)).2 = _
    rw [provCounts, provCounts_eq]
    simp only [Nat.zero_add, List.countP_map]
    simp only [Function.comp_def, List.countP_eq_length_filter]
    first
    | rfl
    | (congr 1
       exact List.filter_congr (fun x _ => decide_eq_decide.mpr Iff.rfl))
  · intro n hmem
    have hkey : n.id ∈ (mergedNodesOf A B strategy).map Node.id :=
      List.mem_map_of_mem Node.id hmem
    rw [mergedNodesOf_map_id] at hkey
    exact mem_of_mem_mergeKeys hkey
  · intro l hmem
    have hkey : linkKey l ∈ (mergedLinksOf A B strategy).map linkKey :=
      List.mem_map_of_mem linkKey hmem
    rw [mergedLinksOf_map_key] at hkey
    exact mem_of_mem_mergeKeys hkey

/-- C5 witness: the provenance characterization instantiated at the
spec's worked example graphs under the `union` strategy. -/
theorem claim_C5_witness : "union" ∈ validStrategies ∧
    (∃ r, mergeGraphs exA exB "union" = Except.ok r ∧
      r.statistics.nodes_from_1 =
        (r.merged_graph.nodes.filter (fun n => decide (n.id ∈ nodeKeys exA))).length ∧
      r.statistics.nodes_from_2 =
        (r.merged_graph.nodes.filter (fun n => decide (n.id ∈ nodeKeys exB))).length ∧
      r.statistics.links_from_1 =
        (r.merged_graph.links.filter (fun l => decide (linkKey l ∈ linkKeys exA))).length ∧
      r.statistics.links_from_2 =
        (r.merged_graph.links.filter (fun l => decide (linkKey l ∈ linkKeys exB))).length ∧
      (∀ n ∈ r.merged_graph.nodes, n.id ∈ nodeKeys exA ∨ n.id ∈ nodeKeys exB) ∧
      (∀ l ∈ r.merged_graph.links,
        linkKey l ∈ linkKeys exA ∨ linkKey l ∈ linkKeys exB)) :=
  ⟨by decide, claim_C5 exA exB "union" (by decide)⟩

/-- C7: `trackEvolution` fails with `InsufficientVersions` (returning
no partial result) exactly on fewer than 2 versions; on `N ≥ 2`
versions it returns `N - 1` step records — the `j`-th comparing the
`j`-th and `(j+1)`-th versions in input order — and each summary total
is the arithmetic sum of the corresponding delta over all steps. -/
theorem claim_C7 : ∀ vs : List GraphVersion,
    (trackEvolution vs = Except.error EngineError.InsufficientVersions ↔
      vs.length < 2) ∧
    (2 ≤ vs.length →
      ∃ r, trackEvolution vs = Except.ok r ∧
        r.evolution_steps.length = vs.length - 1 ∧
        (∀ (j : Nat) (a b : GraphVersion),
          vs[j]? = some a → vs[j + 1]? = some b →
          r.evolution_steps[j]? = some (mkEvolutionStep j a b)) ∧
        r.summary.total_node_additions =
          (r.evolution_steps.map EvolutionStep.nodes_added).sum ∧
        r.summary.total_node_removals =
          (r.evolution_steps.map EvolutionStep.nodes_removed).sum ∧
        r.summary.total_link_additions =
          (r.evolution_steps.map EvolutionStep.links_added).sum ∧
        r.summary.total_link_removals =
          (r.evolution_steps.map EvolutionStep.links_removed).sum) := by
  intro vs
  constructor
  · by_cases h : vs.length < 2
    · rw [trackEvolution, if_pos h]
      simp [h]
    · rw [trackEvolution, if_neg h]
      simp [h]
  · intro h2
    have hnl : ¬ (vs.length < 2) := not_lt.2 h2
    refine ⟨⟨evolutionSteps 0 vs, summarize (evolutionSteps 0 vs)⟩,
      ?_, ?_, ?_, ?_, ?_, ?_, ?_⟩
    · rw [trackEvolution, if_neg hnl]
    · exact length_evolutionSteps vs 0
    · intro j a b ha hb
      have h := getElem_evolutionSteps vs 0 j a b ha hb
      rwa [Nat.zero_add] at h
    · rw [show (⟨evolutionSteps 0 vs, summarize (evolutionSteps 0 vs)⟩ :
        EvolutionResult).summary = summarize (evolutionSteps 0 vs) from rfl,
        summarize_eq]
    · rw [show (⟨evolutionSteps 0 vs, summarize (evolutionSteps 0 vs)⟩ :
        EvolutionResult).summary = summarize (evolutionSteps 0 vs) from rfl,
        summarize_eq]
    · rw [show (⟨evolutionSteps 0 vs, summarize (evolutionSteps 0 vs)⟩ :
        EvolutionResult).summary = summarize (evolutionSteps 0 vs) from rfl,
        summarize_eq]
    · rw [show (⟨evolutionSteps 0 vs, summarize (evolutionSteps 0 vs)⟩ :
        EvolutionResult).summary = summarize (evolutionSteps 0 vs) from rfl,
        summarize_eq]

/-- C7 witness: on a concrete three-version sequence, tracking
succeeds with exactly two steps whose added-node deltas sum to the
summary total, while a one-version sequence fails with
`InsufficientVersions`. -/
theorem claim_C7_witness :
    2 ≤ ([⟨exA, "t0"⟩, ⟨exB, "t1"⟩, ⟨exA, "t2"⟩] : List GraphVersion).length ∧
    (∃ r, trackEvolution [⟨exA, "t0"⟩, ⟨exB, "t1"⟩, ⟨exA, "t2"⟩] =
        Except.ok r ∧
      r.evolution_steps.length = 2 ∧
      r.summary.total_node_additions =
        (r.evolution_steps.map EvolutionStep.nodes_added).sum) ∧
    (trackEvolution [⟨exA, "t0"⟩] =
      Except.error EngineError.InsufficientVersions) := by
  obtain ⟨r, hok, hlen, -, hs1, -, -, -⟩ :=
    (claim_C7 [⟨exA, "t0"⟩, ⟨exB, "t1"⟩, ⟨exA, "t2"⟩]).2 (by decide)
  refine ⟨by decide, ⟨r, hok, ?_, hs1⟩, ?_⟩
  · rw [hlen]
    rfl
  · exact (claim_C7 [⟨exA, "t0"⟩]).1.2 (by decide)

/-- C10: the UI's evolution request always carries exactly two
versions — each a flat object holding one input graph's top-level
fields plus a `timestamp` field set to the client's current time — so
every evolution result obtained through this client has exactly one
step. -/
theorem claim_C10 : ∀ (graph1 graph2 : Graph) (now : String),
    (buildEvolutionRequest graph1 graph2 now).length = 2 ∧
    buildEvolutionRequest graph1 graph2 now =
      [{ nodes := graph1.nodes, links := graph1.links, timestamp := now },
       { nodes := graph2.nodes, links := graph2.links, timestamp := now }] ∧
    (∃ r, trackEvolution
        ((buildEvolutionRequest graph1 graph2 now).map entryToVersion) =
        Except.ok r ∧ r.evolution_steps.length = 1) := by
  intro g1 g2 now
  refine ⟨rfl, rfl,
    ⟨⟨evolutionSteps 0 ((buildEvolutionRequest g1 g2 now).map entryToVersion),
      summarize (evolutionSteps 0
        ((buildEvolutionRequest g1 g2 now).map entryToVersion))⟩, ?_, ?_⟩⟩
  · rw [trackEvolution, if_neg (by simp [buildEvolutionRequest])]
  · simp [length_evolutionSteps, buildEvolutionRequest]

end ReqTrace
